import Mathlib

/-!
Verification development for the hudl repository (Go implementation in
pkg/hudl).  The Go functions `PreParse` (preparser.go), `transformNode`
(transformer), `GenerateGo`/`generateElement`/`generateText` (generator),
`NewRuntime`/`renderDev`/`renderWASM` (runtime.go) are shallowly embedded
below and the specification claims are settled against them.
-/

namespace Hudl

/-! ### Character classes used by the PreParse regexes

The Go code compiles the regexes

  digitRegex = `(\s|[{;]|^)([0-9]+[a-zA-Z%]+)`   (replacement "${1}_${2}")
  elseRegex  = `}\\s*else`                       (replacement "}\nelse")

both inside Go raw-string literals.  In RE2, `\s` is the class
[\t\n\f\r ].  Note that in the second regex the raw string contains the
two characters backslash backslash, so the regex engine sees an escaped
literal backslash followed by a literal letter s repeated: the pattern
matches a right brace, one backslash, any number of letters s, then the
word else.  It does not match a right brace followed by whitespace.
-/

/-- RE2 class [\t\n\f\r ] together with the explicit delimiters left brace
and semicolon of the character class in the digit regex. -/
def isBoundary (c : Char) : Bool :=
  c = ' ' || c = '\t' || c = '\n' || c = '\r' || c = '\x0c' || c = '{' || c = ';'

/-- ASCII decimal digit, the class [0-9]. -/
def isDigitChar (c : Char) : Bool :=
  48 ≤ c.toNat && c.toNat ≤ 57

/-- The class [a-zA-Z%]. -/
def isLtrChar (c : Char) : Bool :=
  (97 ≤ c.toNat && c.toNat ≤ 122) || (65 ≤ c.toNat && c.toNat ≤ 90) || c = '%'

/-- Attempts the greedy match of `[0-9]+[a-zA-Z%]+` at the head of `x`.
Returns the digit run, the letter run and the remainder on success.  With
the two classes disjoint the greedy semantics of RE2 give exactly the
maximal digit run followed by the maximal letter run. -/
def takeDL (x : List Char) : Option (List Char × List Char × List Char) :=
  let ds := x.takeWhile isDigitChar
  let r1 := x.dropWhile isDigitChar
  let ls := r1.takeWhile isLtrChar
  let r2 := r1.dropWhile isLtrChar
  if ds.isEmpty || ls.isEmpty then none else some (ds, ls, r2)

/-- One scanning pass of `digitRegex.ReplaceAllString` over positions past
the start of the input: at each position, a match requires a boundary
character (consumed by the match) followed by digits then letters; the
underscore of the replacement `${1}_${2}` is inserted between them and
scanning resumes after the match.  `fuel` bounds the recursion; it is
always instantiated with at least the length of the list. -/
def dScan (fuel : Nat) (x : List Char) : List Char :=
  match fuel, x with
  | 0, x => x
  | _ + 1, [] => []
  | fuel + 1, c :: rest =>
    if isBoundary c then
      match takeDL rest with
      | some (ds, ls, r2) => c :: '_' :: (ds ++ ls ++ dScan fuel r2)
      | none => c :: dScan fuel rest
    else c :: dScan fuel rest

/-- Canonical-fuel wrapper for `dScan`. -/
def dScanC (x : List Char) : List Char := dScan x.length x

/-- Full effect of `digitRegex.ReplaceAllString`, including the `^`
alternative of the first group which matches (with empty first capture)
only at the very start of the input. -/
def dFix (x : List Char) : List Char :=
  match takeDL x with
  | some (ds, ls, r2) => '_' :: (ds ++ ls ++ dScanC r2)
  | none => dScanC x

/-- Attempts the match of the tail `\\s*else` of the else regex (a literal
backslash, a run of letters s, then the word else) at the head of `x`,
returning the remainder after the match. -/
def tryElse (x : List Char) : Option (List Char) :=
  match x with
  | [] => none
  | c :: rest =>
    if c = '\\' then
      let r2 := rest.dropWhile (fun c => c = 's')
      if r2.take 4 = ['e', 'l', 's', 'e'] then some (r2.drop 4) else none
    else none

/-- Scanning pass of `elseRegex.ReplaceAllString`: each match of
a right brace, a literal backslash, a run of letters s and the word else
is replaced by right brace, newline, else.  `fuel` bounds the recursion. -/
def eScan (fuel : Nat) (x : List Char) : List Char :=
  match fuel, x with
  | 0, x => x
  | _ + 1, [] => []
  | fuel + 1, c :: rest =>
    if c = '}' then
      match tryElse rest with
      | some r2 => '}' :: '\n' :: 'e' :: 'l' :: 's' :: 'e' :: eScan fuel r2
      | none => c :: eScan fuel rest
    else c :: eScan fuel rest

/-- Canonical-fuel wrapper for `eScan`. -/
def eScanC (x : List Char) : List Char := eScan x.length x

/-- List-level PreParse: the digit replacement followed by the else
replacement, in the order of preparser.go. -/
def preParseL (x : List Char) : List Char := eScanC (dFix x)

/-- Embedding of `PreParse` from pkg/hudl/preparser.go. -/
def PreParse (s : String) : String := String.mk (preParseL s.data)

/-- Scans whether a boundary-anchored digit-letters match exists anywhere
in `x` (the non-caret alternatives of the digit regex). -/
def hasB : List Char → Bool
  | [] => false
  | c :: rest => (isBoundary c && (takeDL rest).isSome) || hasB rest

/-- Whether any match of the digit regex exists in `x`, including the
caret alternative at the start. -/
def hasDM (x : List Char) : Bool := (takeDL x).isSome || hasB x

/-- Whether any match of the else regex exists in `x`. -/
def hasE : List Char → Bool
  | [] => false
  | c :: rest => (c = '}' && (tryElse rest).isSome) || hasE rest

/-! ### AST transformer (transformNode of the transformer file)

The node-name splitting of transformNode lines 54-98: `strings.IndexAny`
is modelled by `indexAny`, the scanning loop over the remaining name by
`selLoop`.  The Go loop strips a leading `&`, reads an id up to the next
`.` (a later `&` segment silently overwrites an earlier id), or strips a
leading `.` and reads a class up to the next `&` or `.`. -/

/-- Embedding of `strings.IndexAny(s, chars)`, with `none` for Go's -1. -/
def indexAny : List Char → List Char → Option Nat
  | [], _ => none
  | c :: rest, ts => if ts.contains c then some 0 else (indexAny rest ts).map (· + 1)

/-- The shorthand-consuming loop of transformNode.  `fuel` bounds the
recursion and is always instantiated with at least the length of
`remaining`. -/
def selLoop (fuel : Nat) (remaining : List Char) (id : String) (classes : List String) :
    String × List String :=
  match fuel, remaining with
  | 0, _ => (id, classes)
  | _ + 1, [] => (id, classes)
  | fuel + 1, c :: rest =>
    if c = '&' then
      match indexAny rest ['.'] with
      | none => (String.mk rest, classes)
      | some k => selLoop fuel (rest.drop k) (String.mk (rest.take k)) classes
    else if c = '.' then
      match indexAny rest ['&', '.'] with
      | none => (id, classes ++ [String.mk rest])
      | some k => selLoop fuel (rest.drop k) id (classes ++ [String.mk (rest.take k)])
    else (id, classes)

/-- Name splitting of transformNode: tag defaults to div only when the
name starts with `&` or `.`; otherwise the part before the first `&` or
`.` (or the whole name) is the tag, and the remainder is fed to the
shorthand loop. -/
def splitSelector (name : String) : String × String × List String :=
  let n := name.data
  if n.head? = some '&' ∨ n.head? = some '.' then
    let r := selLoop n.length n "" []
    ("div", r.1, r.2)
  else
    match indexAny n ['&', '.'] with
    | none => (name, "", [])
    | some k =>
      let r := selLoop n.length (n.drop k) "" []
      (String.mk (n.take k), r.1, r.2)

/-- Canonical-fuel wrapper for `selLoop`, used by the proofs. -/
def selLoopC (r : List Char) (id : String) (cls : List String) : String × List String :=
  selLoop r.length r id cls

/-- Raw KDL node as consumed by transformNode: name, properties (the Go
`map[string]string` is carried in one iteration order), positional
arguments (already stringified) and children. -/
inductive KdlNode where
  | mk (name : String) (props : List (String × String)) (args : List String)
       (children : List KdlNode)

/-- AST node of ast.go: Element (tag, id, classes, attribute map carried
in one iteration order, children) or Text.  The unused IsSelfClosing flag
of the Go struct is not consulted by any embedded function, exactly as in
the generator. -/
inductive Node where
  | element (tag : String) (id : String) (classes : List String)
      (attributes : List (String × String)) (children : List Node)
  | text (content : String)

mutual
/-- Embedding of `transformNode`: split the name, copy the properties,
transform the children and append the last positional argument (if any)
as a trailing text child. -/
def transformNode : KdlNode → Node
  | KdlNode.mk name props args children =>
    let s := splitSelector name
    let textChild : List Node :=
      match args.getLast? with
      | some t => [Node.text t]
      | none => []
    Node.element s.1 s.2.1 s.2.2 props (transformNodes children ++ textChild)

/-- Embedding of `transformNodes`. -/
def transformNodes : List KdlNode → List Node
  | [] => []
  | n :: rest => transformNode n :: transformNodes rest
end

/-! ### Generator (generateElement / generateText)

GenerateGo emits a Go function consisting of a sequence of
`io.WriteString(w, lit)` statements.  The definitions below give the
bytes that the generated function writes at run time: generateElement
writes the open tag, an id attribute when the ID is nonempty, a class
attribute when the class list is nonempty, then one attribute per entry
of the attribute map in iteration order, `>`, the children, and always a
closing tag; generateText writes the text content verbatim (its only
rewriting, quote-escaping for the Go string literal, round-trips when the
generated file is compiled). -/

/-- Bytes written for the open tag, id and class, in the order of
generateElement. -/
def openPart (tag : String) (id : String) (classes : List String) : String :=
  "<" ++ tag
  ++ (if id ≠ "" then " id=\"" ++ id ++ "\"" else "")
  ++ (if classes.isEmpty then "" else " class=\"" ++ String.intercalate " " classes ++ "\"")

/-- Bytes written for the attribute map entries, in the given iteration
order (Go map iteration order is unspecified). -/
def attrsOutput : List (String × String) → String
  | [] => ""
  | (k, v) :: rest => " " ++ k ++ "=\"" ++ v ++ "\"" ++ attrsOutput rest

mutual
/-- Bytes written at run time by the code generateNode emits for one
node. -/
def generateNodeOutput : Node → String
  | Node.element tag id classes attributes children =>
    openPart tag id classes ++ attrsOutput attributes ++ ">"
    ++ generateNodesOutput children ++ "</" ++ tag ++ ">"
  | Node.text content => content

/-- Bytes written for a list of nodes in order. -/
def generateNodesOutput : List Node → String
  | [] => ""
  | n :: rest => generateNodeOutput n ++ generateNodesOutput rest
end

/-- The void-element set named by the specification (the generator has no
such set; see claim C4). -/
def voidElements : List String :=
  ["area", "base", "br", "col", "embed", "hr", "img", "input", "link",
   "meta", "param", "source", "track", "wbr"]

/-! ### Runtime (runtime.go)

NewRuntime reads HUDL_DEV and HUDL_DEV_ADDR from the environment
(modelled as a total function returning the empty string for unset
variables, as os.Getenv does), returns a dev-mode runtime without
touching WASM when HUDL_DEV is "1" or "true", and otherwise requires
non-nil wasmBytes and instantiates the module.  The external WASM
instantiation (including the export lookups) is abstracted into the
boolean `instOk`. -/

/-- Runtime state relevant to the claims: the mode, the dev address and
whether the WASM path was initialized. -/
structure Runtime where
  devMode : Bool
  devAddr : String
  wasmInitialized : Bool

/-- The dev-mode test of NewRuntime: the doc comment of runtime.go calls
a value truthy exactly when it is "1" or "true". -/
def truthyDev (v : String) : Bool := v == "1" || v == "true"

/-- Embedding of `NewRuntime`. -/
def NewRuntime (env : String → String) (wasmBytes : Option (List Nat)) (instOk : Bool) :
    Except String Runtime :=
  let devMode := truthyDev (env "HUDL_DEV")
  let devAddr := if env "HUDL_DEV_ADDR" == "" then "localhost:9999" else env "HUDL_DEV_ADDR"
  if devMode then
    Except.ok { devMode := true, devAddr := devAddr, wasmInitialized := false }
  else
    match wasmBytes with
    | none => Except.error "wasmBytes required in prod mode (set HUDL_DEV=1 for dev mode)"
    | some _ =>
      if instOk then Except.ok { devMode := false, devAddr := devAddr, wasmInitialized := true }
      else Except.error "failed to instantiate module"

/-- The URL renderDev posts to: http, the dev address, the render path. -/
def renderDevURL (r : Runtime) : String := "http://" ++ r.devAddr ++ "/render"

/-- Embedding of `Memory().Read(ptr, size)` of wazero as used by
renderWASM: the byte view of length `size` at offset `ptr` when it lies
inside the linear memory, failure otherwise. -/
def goMemRead (mem : List Nat) (ptr size : Nat) : Option (List Nat) :=
  if ptr + size ≤ mem.length then some ((mem.drop ptr).take size) else none

/-- Embedding of the tail of `renderWASM`: unpack the 64-bit result into
pointer (high 32 bits) and size (low 32 bits) exactly as
`uint32(packed >> 32)` and `uint32(packed)` do, then read that many bytes
from memory, failing when the read fails. -/
def renderWASM (mem : List Nat) (packed : Nat) : Except String (List Nat) :=
  let ptr := packed / 2 ^ 32 % 2 ^ 32
  let size := packed % 2 ^ 32
  match goMemRead mem ptr size with
  | some bs => Except.ok bs
  | none => Except.error "failed to read result from memory"

/-! ### Statement-side builders

These definitions appear only in theorem statements: they build concrete
selector names and token shapes so that the amended claims can be stated
over all inputs of the relevant shape. -/

/-- Concatenation of class segments, each preceded by a dot. -/
def dotsL : List String → List Char
  | [] => []
  | c :: cs => '.' :: (c.data ++ dotsL cs)

/-- String form of `dotsL`. -/
def dotsJoin (cs : List String) : String := String.mk (dotsL cs)

end Hudl

namespace Hudl

/-! ### Helper lemmas about takeWhile and dropWhile -/

theorem dropWhile_head_not (p : Char → Bool) :
    ∀ (l : List Char) (c : Char), (l.dropWhile p).head? = some c → p c = false := by
  intro l
  induction l with
  | nil => intro c h; simp [List.dropWhile] at h
  | cons a l ih =>
    intro c h
    by_cases hp : p a
    · rw [List.dropWhile_cons_of_pos hp] at h
      exact ih c h
    · rw [List.dropWhile_cons_of_neg hp] at h
      simp at h
      subst h
      exact Bool.eq_false_iff.mpr hp

theorem mem_takeWhile_true (p : Char → Bool) :
    ∀ (l : List Char) (c : Char), c ∈ l.takeWhile p → p c = true := by
  intro l
  induction l with
  | nil => intro c h; simp [List.takeWhile] at h
  | cons a l ih =>
    intro c h
    by_cases hp : p a
    · rw [List.takeWhile_cons_of_pos hp] at h
      rcases List.mem_cons.mp h with h | h
      · rw [h]; exact hp
      · exact ih c h
    · rw [List.takeWhile_cons_of_neg hp] at h
      simp at h

theorem takeWhile_append_all (p : Char → Bool) (l m : List Char)
    (h : ∀ c ∈ l, p c = true) : (l ++ m).takeWhile p = l ++ m.takeWhile p := by
  induction l with
  | nil => simp
  | cons a l ih =>
    have ha : p a = true := h a (List.mem_cons_self a l)
    simp only [List.cons_append, List.takeWhile_cons_of_pos ha]
    rw [ih (fun c hc => h c (List.mem_cons_of_mem a hc))]

theorem dropWhile_append_all (p : Char → Bool) (l m : List Char)
    (h : ∀ c ∈ l, p c = true) : (l ++ m).dropWhile p = m.dropWhile p := by
  induction l with
  | nil => simp
  | cons a l ih =>
    have ha : p a = true := h a (List.mem_cons_self a l)
    simp only [List.cons_append, List.dropWhile_cons_of_pos ha]
    exact ih (fun c hc => h c (List.mem_cons_of_mem a hc))

theorem takeWhile_nil_of_head (p : Char → Bool) (l : List Char) (c : Char)
    (hh : l.head? = some c) (hc : p c = false) : l.takeWhile p = [] := by
  cases l with
  | nil => simp at hh
  | cons a l =>
    simp at hh
    rw [← hh] at hc
    exact List.takeWhile_cons_of_neg (by simp [hc])

theorem dropWhile_id_of_head (p : Char → Bool) (l : List Char) (c : Char)
    (hh : l.head? = some c) (hc : p c = false) : l.dropWhile p = l := by
  cases l with
  | nil => simp at hh
  | cons a l =>
    simp at hh
    rw [← hh] at hc
    exact List.dropWhile_cons_of_neg (by simp [hc])

/-! ### Characterization of takeDL -/

theorem takeDL_spec {x ds ls r2 : List Char} (h : takeDL x = some (ds, ls, r2)) :
    x = ds ++ ls ++ r2 ∧ ds ≠ [] ∧ ls ≠ [] ∧
    (∀ c ∈ ds, isDigitChar c = true) ∧ (∀ c ∈ ls, isLtrChar c = true) ∧
    (∀ c, r2.head? = some c → isLtrChar c = false) := by
  unfold takeDL at h
  by_cases he : (x.takeWhile isDigitChar).isEmpty || ((x.dropWhile isDigitChar).takeWhile isLtrChar).isEmpty
  · simp [he] at h
  · simp [he] at h
    obtain ⟨h1, h2, h3⟩ := h
    subst h1; subst h2; subst h3
    have hds : x.takeWhile isDigitChar ≠ [] := by
      intro hh
      apply he
      rw [hh]
      simp
    have hls : (x.dropWhile isDigitChar).takeWhile isLtrChar ≠ [] := by
      intro hh
      apply he
      rw [hh]
      simp
    refine ⟨?_, hds, hls, ?_, ?_, ?_⟩
    · rw [List.append_assoc, List.takeWhile_append_dropWhile, List.takeWhile_append_dropWhile]
    · exact fun c hc => mem_takeWhile_true _ _ c hc
    · exact fun c hc => mem_takeWhile_true _ _ c hc
    · exact fun c hc => dropWhile_head_not _ _ c hc

theorem takeDL_len {x ds ls r2 : List Char} (h : takeDL x = some (ds, ls, r2)) :
    r2.length ≤ x.length := by
  obtain ⟨hx, -, -, -, -, -⟩ := takeDL_spec h
  rw [hx]
  simp
  omega

theorem takeDL_cons_not_digit {c : Char} {x : List Char} (h : isDigitChar c = false) :
    takeDL (c :: x) = none := by
  unfold takeDL
  rw [List.takeWhile_cons_of_neg (by simp [h])]
  simp

theorem takeDL_none_head {x : List Char} (h : ∀ c, x.head? = some c → isDigitChar c = false) :
    takeDL x = none := by
  cases x with
  | nil => rfl
  | cons a l => exact takeDL_cons_not_digit (h a rfl)

/-! ### Fuel invariance and unfolding for dScan -/

theorem dScan_nil : ∀ g, dScan g [] = [] := by
  intro g; cases g <;> rfl

theorem dScan_fuelInv : ∀ f g (x : List Char), x.length ≤ f → x.length ≤ g →
    dScan f x = dScan g x := by
  intro f
  induction f with
  | zero =>
    intro g x hf hg
    have : x = [] := List.length_eq_zero.mp (Nat.le_zero.mp hf)
    subst this
    rw [dScan_nil, dScan_nil]
  | succ f ih =>
    intro g x hf hg
    cases x with
    | nil => rw [dScan_nil, dScan_nil]
    | cons c rest =>
      cases g with
      | zero => simp at hg
      | succ g =>
        simp only [List.length_cons, Nat.succ_le_succ_iff] at hf hg
        show dScan (f + 1) (c :: rest) = dScan (g + 1) (c :: rest)
        simp only [dScan]
        by_cases hb : isBoundary c = true
        · rw [if_pos hb, if_pos hb]
          cases h : takeDL rest with
          | none => dsimp only; rw [ih g rest hf hg]
          | some t =>
            obtain ⟨ds, ls, r2⟩ := t
            have hr2 := takeDL_len h
            dsimp only
            rw [ih g r2 (le_trans hr2 hf) (le_trans hr2 hg)]
        · rw [if_neg hb, if_neg hb]
          rw [ih g rest hf hg]

theorem dScanC_cons (c : Char) (rest : List Char) : dScanC (c :: rest) =
    if isBoundary c then
      match takeDL rest with
      | some (ds, ls, r2) => c :: '_' :: (ds ++ ls ++ dScanC r2)
      | none => c :: dScanC rest
    else c :: dScanC rest := by
  show dScan (rest.length + 1) (c :: rest) = _
  simp only [dScan]
  by_cases hb : isBoundary c = true
  · rw [if_pos hb, if_pos hb]
    cases h : takeDL rest with
    | none => rfl
    | some t =>
      obtain ⟨ds, ls, r2⟩ := t
      have hr2 := takeDL_len h
      dsimp only
      rw [dScan_fuelInv rest.length r2.length r2 hr2 (le_refl _)]
      rfl
  · rw [if_neg hb, if_neg hb]
    rfl

end Hudl

namespace Hudl

/-! ### Character class facts -/

theorem boundary_cases {c : Char} (h : isBoundary c = true) :
    c = ' ' ∨ c = '\t' ∨ c = '\n' ∨ c = '\r' ∨ c = '\x0c' ∨ c = '{' ∨ c = ';' := by
  simp only [isBoundary, Bool.or_eq_true, decide_eq_true_eq] at h
  tauto

theorem digit_not_boundary {c : Char} (h : isDigitChar c = true) : isBoundary c = false := by
  cases hb : isBoundary c
  · rfl
  · exfalso
    rcases boundary_cases hb with rfl | rfl | rfl | rfl | rfl | rfl | rfl <;>
      exact absurd h (by decide)

theorem ltr_not_boundary {c : Char} (h : isLtrChar c = true) : isBoundary c = false := by
  cases hb : isBoundary c
  · rfl
  · exfalso
    rcases boundary_cases hb with rfl | rfl | rfl | rfl | rfl | rfl | rfl <;>
      exact absurd h (by decide)

theorem ltr_not_digit {c : Char} (h : isLtrChar c = true) : isDigitChar c = false := by
  cases hd : isDigitChar c
  · rfl
  · exfalso
    simp only [isLtrChar, Bool.or_eq_true, Bool.and_eq_true, decide_eq_true_eq] at h
    simp only [isDigitChar, Bool.and_eq_true, decide_eq_true_eq] at hd
    rcases h with ⟨h1, h2⟩ | ⟨h1, h2⟩ | rfl
    · omega
    · omega
    · exact absurd hd (by decide)

/-! ### hasB facts -/

theorem hasB_cons (c : Char) (rest : List Char) :
    hasB (c :: rest) = ((isBoundary c && (takeDL rest).isSome) || hasB rest) := rfl

theorem hasB_append {l m : List Char} (h : ∀ c ∈ l, isBoundary c = false) :
    hasB (l ++ m) = hasB m := by
  induction l with
  | nil => rfl
  | cons a l ih =>
    rw [List.cons_append, hasB_cons, h a (List.mem_cons_self a l)]
    simp only [Bool.false_and, Bool.false_or]
    exact ih (fun c hc => h c (List.mem_cons_of_mem a hc))

/-! ### dScanC structure lemmas -/

theorem dScanC_copy {l m : List Char} (h : ∀ c ∈ l, isBoundary c = false) :
    dScanC (l ++ m) = l ++ dScanC m := by
  induction l with
  | nil => rfl
  | cons a l ih =>
    rw [List.cons_append, dScanC_cons, h a (List.mem_cons_self a l)]
    simp only [Bool.false_eq_true, if_false]
    rw [ih (fun c hc => h c (List.mem_cons_of_mem a hc))]
    rfl

theorem dScanC_head (x : List Char) : (dScanC x).head? = x.head? := by
  cases x with
  | nil => rfl
  | cons c rest =>
    rw [dScanC_cons]
    split
    · split <;> rfl
    · rfl

theorem dropWhile_all_nil (p : Char → Bool) (l : List Char)
    (h : ∀ c ∈ l, p c = true) : l.dropWhile p = [] := by
  induction l with
  | nil => rfl
  | cons a l ih =>
    rw [List.dropWhile_cons_of_pos (h a (List.mem_cons_self a l))]
    exact ih (fun c hc => h c (List.mem_cons_of_mem a hc))

theorem takeDL_none_iff {x : List Char} : takeDL x = none ↔
    (x.takeWhile isDigitChar = [] ∨ (x.dropWhile isDigitChar).takeWhile isLtrChar = []) := by
  unfold takeDL
  by_cases he : ((x.takeWhile isDigitChar).isEmpty
      || ((x.dropWhile isDigitChar).takeWhile isLtrChar).isEmpty) = true
  · rw [if_pos he]
    rw [Bool.or_eq_true] at he
    simp only [true_iff]
    rcases he with h | h
    · exact Or.inl (List.isEmpty_iff.mp h)
    · exact Or.inr (List.isEmpty_iff.mp h)
  · rw [if_neg he]
    constructor
    · intro h
      exact absurd h (by simp)
    · intro h
      exfalso
      apply he
      rw [Bool.or_eq_true]
      rcases h with h | h
      · exact Or.inl (by rw [h]; rfl)
      · exact Or.inr (by rw [h]; rfl)

theorem takeDL_none_dScanC {x : List Char} (h : takeDL x = none) :
    takeDL (dScanC x) = none := by
  have hds : ∀ c ∈ x.takeWhile isDigitChar, isBoundary c = false :=
    fun c hc => digit_not_boundary (mem_takeWhile_true _ _ c hc)
  have hsplit : x.takeWhile isDigitChar ++ x.dropWhile isDigitChar = x :=
    List.takeWhile_append_dropWhile isDigitChar x
  rcases takeDL_none_iff.mp h with hnil | hnil
  · cases hx : x with
    | nil => rfl
    | cons c rest =>
      have hc : isDigitChar c = false := by
        cases hd : isDigitChar c
        · rfl
        · rw [hx, List.takeWhile_cons_of_pos hd] at hnil
          simp at hnil
      apply takeDL_none_head
      intro d hd
      rw [dScanC_head, List.head?_cons] at hd
      cases hd
      exact hc
  · rw [takeDL_none_iff]
    right
    cases hz : x.dropWhile isDigitChar with
    | nil =>
      rw [hz, List.append_nil] at hsplit
      have hall : ∀ c ∈ x, isDigitChar c = true := by
        intro c hc
        rw [← hsplit] at hc
        exact mem_takeWhile_true _ _ c hc
      have hcopy : dScanC x = x := by
        conv_lhs => rw [← hsplit, ← List.append_nil (x.takeWhile isDigitChar)]
        rw [dScanC_copy hds]
        simp [dScanC, dScan_nil]
        exact hall
      rw [hcopy, dropWhile_all_nil _ _ hall]
      rfl
    | cons c z' =>
      have hcd : isDigitChar c = false := dropWhile_head_not _ _ c (by rw [hz]; rfl)
      have hcl : isLtrChar c = false := by
        cases hl : isLtrChar c
        · rfl
        · rw [hz, List.takeWhile_cons_of_pos hl] at hnil
          simp at hnil
      have hstep : dScanC x = x.takeWhile isDigitChar ++ dScanC (c :: z') := by
        conv_lhs => rw [← hsplit, hz]
        exact dScanC_copy hds
      rw [hstep]
      rw [dropWhile_append_all _ _ _ (fun d hd => mem_takeWhile_true _ _ d hd)]
      have hhead : (dScanC (c :: z')).head? = some c := by rw [dScanC_head]; rfl
      rw [dropWhile_id_of_head _ _ c hhead hcd]
      exact takeWhile_nil_of_head _ _ c hhead hcl

end Hudl

namespace Hudl

theorem hasB_dScanC_aux : ∀ n (x : List Char), x.length ≤ n → hasB (dScanC x) = false := by
  intro n
  induction n with
  | zero =>
    intro x hx
    have : x = [] := List.length_eq_zero.mp (Nat.le_zero.mp hx)
    subst this
    rfl
  | succ n ih =>
    intro x hx
    cases x with
    | nil => rfl
    | cons c rest =>
      simp only [List.length_cons, Nat.succ_le_succ_iff] at hx
      rw [dScanC_cons]
      by_cases hb : isBoundary c = true
      · rw [if_pos hb]
        cases h : takeDL rest with
        | none =>
          dsimp only
          rw [hasB_cons, takeDL_none_dScanC h]
          simp only [Option.isSome_none, Bool.and_false, Bool.false_or]
          exact ih rest hx
        | some t =>
          obtain ⟨ds, ls, r2⟩ := t
          obtain ⟨hxeq, -, -, hds, hls, -⟩ := takeDL_spec h
          have hr2 : r2.length ≤ n := le_trans (takeDL_len h) hx
          dsimp only
          rw [hasB_cons, takeDL_cons_not_digit (by decide)]
          simp only [Option.isSome_none, Bool.and_false, Bool.false_or]
          rw [hasB_cons]
          simp only [show isBoundary '_' = false by decide, Bool.false_and, Bool.false_or]
          rw [List.append_assoc, hasB_append (fun d hd => digit_not_boundary (hds d hd)),
            hasB_append (fun d hd => ltr_not_boundary (hls d hd))]
          exact ih r2 hr2
      · rw [if_neg hb]
        rw [hasB_cons]
        have hb' : isBoundary c = false := by
          cases hbb : isBoundary c
          · rfl
          · exact absurd hbb hb
        rw [hb']
        simp only [Bool.false_and, Bool.false_or]
        exact ih rest hx

theorem hasB_dScanC (x : List Char) : hasB (dScanC x) = false :=
  hasB_dScanC_aux x.length x (le_refl _)

theorem dScanC_id_aux : ∀ n (x : List Char), x.length ≤ n → hasB x = false → dScanC x = x := by
  intro n
  induction n with
  | zero =>
    intro x hx _
    have : x = [] := List.length_eq_zero.mp (Nat.le_zero.mp hx)
    subst this
    rfl
  | succ n ih =>
    intro x hx hB
    cases x with
    | nil => rfl
    | cons c rest =>
      simp only [List.length_cons, Nat.succ_le_succ_iff] at hx
      rw [hasB_cons, Bool.or_eq_false_iff, Bool.and_eq_false_iff] at hB
      rw [dScanC_cons]
      by_cases hb : isBoundary c = true
      · rw [if_pos hb]
        have hnone : takeDL rest = none := by
          rcases hB.1 with h | h
          · rw [hb] at h; simp at h
          · exact Option.not_isSome_iff_eq_none.mp (by rw [h]; simp)
        rw [hnone]
        dsimp only
        rw [ih rest hx hB.2]
      · rw [if_neg hb]
        rw [ih rest hx hB.2]

theorem dScanC_id {x : List Char} (h : hasB x = false) : dScanC x = x :=
  dScanC_id_aux x.length x (le_refl _) h

theorem hasDM_dFix (x : List Char) : hasDM (dFix x) = false := by
  unfold dFix
  cases h : takeDL x with
  | none =>
    unfold hasDM
    rw [takeDL_none_dScanC h, hasB_dScanC]
    rfl
  | some t =>
    obtain ⟨ds, ls, r2⟩ := t
    obtain ⟨hxeq, -, -, hds, hls, -⟩ := takeDL_spec h
    unfold hasDM
    rw [takeDL_cons_not_digit (by decide)]
    rw [hasB_cons]
    simp only [show isBoundary '_' = false by decide, Bool.false_and, Bool.false_or,
      Option.isSome_none]
    rw [List.append_assoc, hasB_append (fun d hd => digit_not_boundary (hds d hd)),
      hasB_append (fun d hd => ltr_not_boundary (hls d hd)), hasB_dScanC]

theorem dFix_id {x : List Char} (h : hasDM x = false) : dFix x = x := by
  unfold hasDM at h
  rw [Bool.or_eq_false_iff] at h
  have hnone : takeDL x = none := Option.not_isSome_iff_eq_none.mp (by simp [h.1])
  unfold dFix
  rw [hnone]
  exact dScanC_id h.2

theorem dFix_idem (x : List Char) : dFix (dFix x) = dFix x :=
  dFix_id (hasDM_dFix x)

end Hudl

namespace Hudl

/-! ### tryElse characterization -/

theorem tryElse_spec {x r2 : List Char} (h : tryElse x = some r2) :
    ∃ sr, x = '\\' :: (sr ++ ('e' :: 'l' :: 's' :: 'e' :: r2)) ∧ ∀ c ∈ sr, c = 's' := by
  cases x with
  | nil => simp [tryElse] at h
  | cons a rest =>
    unfold tryElse at h
    dsimp only at h
    by_cases ha : a = '\\'
    · rw [if_pos ha] at h
      subst ha
      by_cases h4 : (rest.dropWhile (fun c => c = 's')).take 4 = ['e', 'l', 's', 'e']
      · rw [if_pos h4] at h
        simp only [Option.some.injEq] at h
        refine ⟨rest.takeWhile (fun c => c = 's'), ?_, ?_⟩
        · have hsplit : rest.takeWhile (fun c => c = 's') ++ rest.dropWhile (fun c => c = 's')
              = rest := List.takeWhile_append_dropWhile _ rest
          have hz : rest.dropWhile (fun c => c = 's') =
              'e' :: 'l' :: 's' :: 'e' :: r2 := by
            conv_lhs => rw [← List.take_append_drop 4 (rest.dropWhile (fun c => c = 's'))]
            rw [h4, h]
            rfl
          conv_lhs => rw [← hsplit, hz]
        · intro c hc
          have := mem_takeWhile_true _ _ c hc
          exact of_decide_eq_true this
      · rw [if_neg h4] at h
        simp at h
    · rw [if_neg ha] at h
      simp at h

theorem tryElse_len {x r2 : List Char} (h : tryElse x = some r2) : r2.length ≤ x.length := by
  obtain ⟨sr, hx, -⟩ := tryElse_spec h
  rw [hx]
  simp
  omega

theorem tryElse_not_backslash {x : List Char} (h : ∀ c, x.head? = some c → c ≠ '\\') :
    tryElse x = none := by
  cases x with
  | nil => rfl
  | cons a rest =>
    unfold tryElse
    dsimp only
    rw [if_neg (h a rfl)]

/-! ### Fuel invariance and unfolding for eScan -/

theorem eScan_nil : ∀ g, eScan g [] = [] := by
  intro g; cases g <;> rfl

theorem eScan_fuelInv : ∀ f g (x : List Char), x.length ≤ f → x.length ≤ g →
    eScan f x = eScan g x := by
  intro f
  induction f with
  | zero =>
    intro g x hf hg
    have : x = [] := List.length_eq_zero.mp (Nat.le_zero.mp hf)
    subst this
    rw [eScan_nil, eScan_nil]
  | succ f ih =>
    intro g x hf hg
    cases x with
    | nil => rw [eScan_nil, eScan_nil]
    | cons c rest =>
      cases g with
      | zero => simp at hg
      | succ g =>
        simp only [List.length_cons, Nat.succ_le_succ_iff] at hf hg
        show eScan (f + 1) (c :: rest) = eScan (g + 1) (c :: rest)
        simp only [eScan]
        by_cases hc : c = '}'
        · rw [if_pos hc, if_pos hc]
          cases h : tryElse rest with
          | none => dsimp only; rw [ih g rest hf hg]
          | some r2 =>
            have hr2 := tryElse_len h
            dsimp only
            rw [ih g r2 (le_trans hr2 hf) (le_trans hr2 hg)]
        · rw [if_neg hc, if_neg hc]
          rw [ih g rest hf hg]

theorem eScanC_cons (c : Char) (rest : List Char) : eScanC (c :: rest) =
    if c = '}' then
      match tryElse rest with
      | some r2 => '}' :: '\n' :: 'e' :: 'l' :: 's' :: 'e' :: eScanC r2
      | none => c :: eScanC rest
    else c :: eScanC rest := by
  show eScan (rest.length + 1) (c :: rest) = _
  simp only [eScan]
  by_cases hc : c = '}'
  · rw [if_pos hc, if_pos hc]
    cases h : tryElse rest with
    | none => rfl
    | some r2 =>
      have hr2 := tryElse_len h
      dsimp only
      rw [eScan_fuelInv rest.length r2.length r2 hr2 (le_refl _)]
      rfl
  · rw [if_neg hc, if_neg hc]
    rfl

theorem eScanC_head (x : List Char) : (eScanC x).head? = x.head? := by
  cases x with
  | nil => rfl
  | cons c rest =>
    rw [eScanC_cons]
    split
    · rename_i hc
      subst hc
      split <;> rfl
    · rfl

theorem eScanC_copy {l m : List Char} (h : ∀ c ∈ l, c ≠ '}') :
    eScanC (l ++ m) = l ++ eScanC m := by
  induction l with
  | nil => rfl
  | cons a l ih =>
    rw [List.cons_append, eScanC_cons, if_neg (h a (List.mem_cons_self a l))]
    rw [ih (fun c hc => h c (List.mem_cons_of_mem a hc))]
    rfl

/-! ### hasE facts -/

theorem hasE_cons (c : Char) (rest : List Char) :
    hasE (c :: rest) = ((c = '}' && (tryElse rest).isSome) || hasE rest) := rfl

theorem hasE_append {l m : List Char} (h : ∀ c ∈ l, c ≠ '}') :
    hasE (l ++ m) = hasE m := by
  induction l with
  | nil => rfl
  | cons a l ih =>
    rw [List.cons_append, hasE_cons]
    rw [decide_eq_false (h a (List.mem_cons_self a l))]
    simp only [Bool.false_and, Bool.false_or]
    exact ih (fun c hc => h c (List.mem_cons_of_mem a hc))

theorem hasE_false_tail {c : Char} {rest : List Char} (h : hasE (c :: rest) = false) :
    hasE rest = false := by
  rw [hasE_cons, Bool.or_eq_false_iff] at h
  exact h.2

theorem hasB_false_tail {c : Char} {rest : List Char} (h : hasB (c :: rest) = false) :
    hasB rest = false := by
  rw [hasB_cons, Bool.or_eq_false_iff] at h
  exact h.2

theorem hasB_false_suffix : ∀ (l m : List Char), hasB (l ++ m) = false → hasB m = false := by
  intro l
  induction l with
  | nil => exact fun m h => h
  | cons a l ih => exact fun m h => ih m (hasB_false_tail h)

end Hudl

namespace Hudl

theorem take_no_curly : ∀ (z : List Char) (k : Nat),
    '}' ∉ (eScanC z).take k → (eScanC z).take k = z.take k := by
  intro z
  induction z with
  | nil => intro k _; rfl
  | cons c rest ih =>
    intro k h
    by_cases hc : c = '}'
    · subst hc
      rw [eScanC_cons, if_pos rfl] at h ⊢
      cases ht : tryElse rest with
      | some r2 =>
        rw [ht] at h
        cases k with
        | zero => rfl
        | succ k =>
          exfalso
          exact h (List.mem_cons_self _ _)
      | none =>
        rw [ht] at h
        cases k with
        | zero => rfl
        | succ k =>
          exfalso
          exact h (List.mem_cons_self _ _)
    · rw [eScanC_cons, if_neg hc] at h ⊢
      cases k with
      | zero => rfl
      | succ k =>
        rw [List.take_succ_cons] at h ⊢
        rw [ih k (fun hm => h (List.mem_cons_of_mem c hm))]
        rfl

theorem tryElse_none_eScanC {y : List Char} (h : tryElse y = none) :
    tryElse (eScanC y) = none := by
  cases y with
  | nil => rfl
  | cons a rest =>
    by_cases ha : a = '\\'
    · subst ha
      have h4 : (rest.dropWhile (fun c => c = 's')).take 4 ≠ ['e', 'l', 's', 'e'] := by
        intro h4
        unfold tryElse at h
        dsimp only at h
        rw [if_pos rfl, if_pos h4] at h
        simp at h
      have hcopy : eScanC ('\\' :: rest) = '\\' :: eScanC rest := by
        rw [eScanC_cons, if_neg (by decide)]
      rw [hcopy]
      unfold tryElse
      dsimp only
      rw [if_pos rfl]
      have hsr : ∀ c ∈ rest.takeWhile (fun c => c = 's'), c ≠ '}' := by
        intro c hc
        have := of_decide_eq_true (mem_takeWhile_true _ _ c hc)
        subst this
        decide
      have hsplit : rest.takeWhile (fun c => c = 's') ++ rest.dropWhile (fun c => c = 's')
          = rest := List.takeWhile_append_dropWhile _ rest
      have hstep : eScanC rest = rest.takeWhile (fun c => c = 's')
          ++ eScanC (rest.dropWhile (fun c => c = 's')) := by
        conv_lhs => rw [← hsplit]
        exact eScanC_copy hsr
      rw [hstep]
      rw [dropWhile_append_all _ _ _ (fun c hc => mem_takeWhile_true _ _ c hc)]
      cases hz : rest.dropWhile (fun c => c = 's') with
      | nil => decide
      | cons b z' =>
        have hb : decide (b = 's') = false := dropWhile_head_not _ _ b (by rw [hz]; rfl)
        have hhead : (eScanC (b :: z')).head? = some b := by rw [eScanC_head]; rfl
        rw [dropWhile_id_of_head _ _ b hhead hb]
        rw [if_neg]
        intro hcontr
        apply h4
        rw [hz]
        rw [← take_no_curly (b :: z') 4 (by rw [hcontr]; decide)]
        exact hcontr
    · apply tryElse_not_backslash
      intro c hc
      rw [eScanC_head] at hc
      simp at hc
      subst hc
      exact ha

theorem hasE_eScanC_aux : ∀ n (y : List Char), y.length ≤ n → hasE (eScanC y) = false := by
  intro n
  induction n with
  | zero =>
    intro y hy
    have : y = [] := List.length_eq_zero.mp (Nat.le_zero.mp hy)
    subst this
    rfl
  | succ n ih =>
    intro y hy
    cases y with
    | nil => rfl
    | cons c rest =>
      simp only [List.length_cons, Nat.succ_le_succ_iff] at hy
      by_cases hc : c = '}'
      · subst hc
        rw [eScanC_cons, if_pos rfl]
        cases ht : tryElse rest with
        | some r2 =>
          have hr2 : r2.length ≤ n := le_trans (tryElse_len ht) hy
          dsimp only
          rw [hasE_cons, hasE_cons, hasE_cons, hasE_cons, hasE_cons, hasE_cons]
          rw [tryElse_not_backslash (fun d hd => by
            simp at hd
            subst hd
            decide)]
          simp only [Option.isSome_none, Bool.and_false, Bool.false_or]
          simp only [show decide ('\n' = '}') = false from by decide,
            show decide ('e' = '}') = false from by decide,
            show decide ('l' = '}') = false from by decide,
            show decide ('s' = '}') = false from by decide,
            Bool.false_and, Bool.false_or]
          exact ih r2 hr2
        | none =>
          dsimp only
          rw [hasE_cons, tryElse_none_eScanC ht]
          simp only [Option.isSome_none, Bool.and_false, Bool.false_or]
          exact ih rest hy
      · rw [eScanC_cons, if_neg hc]
        rw [hasE_cons, decide_eq_false hc]
        simp only [Bool.false_and, Bool.false_or]
        exact ih rest hy

theorem hasE_eScanC (y : List Char) : hasE (eScanC y) = false :=
  hasE_eScanC_aux y.length y (le_refl _)

theorem eScanC_id_aux : ∀ n (y : List Char), y.length ≤ n → hasE y = false → eScanC y = y := by
  intro n
  induction n with
  | zero =>
    intro y hy _
    have : y = [] := List.length_eq_zero.mp (Nat.le_zero.mp hy)
    subst this
    rfl
  | succ n ih =>
    intro y hy hE
    cases y with
    | nil => rfl
    | cons c rest =>
      simp only [List.length_cons, Nat.succ_le_succ_iff] at hy
      rw [hasE_cons, Bool.or_eq_false_iff, Bool.and_eq_false_iff] at hE
      rw [eScanC_cons]
      by_cases hc : c = '}'
      · rw [if_pos hc]
        have hnone : tryElse rest = none := by
          rcases hE.1 with h | h
          · rw [decide_eq_true hc] at h
            simp at h
          · exact Option.not_isSome_iff_eq_none.mp (by simp [h])
        rw [hnone]
        dsimp only
        rw [ih rest hy hE.2]
      · rw [if_neg hc]
        rw [ih rest hy hE.2]

theorem eScanC_id {y : List Char} (h : hasE y = false) : eScanC y = y :=
  eScanC_id_aux y.length y (le_refl _) h

theorem eScanC_idem (y : List Char) : eScanC (eScanC y) = eScanC y :=
  eScanC_id (hasE_eScanC y)

end Hudl

namespace Hudl

theorem digit_ne_curly {c : Char} (h : isDigitChar c = true) : c ≠ '}' := by
  intro hc
  subst hc
  exact absurd h (by decide)

theorem takeDL_none_eScanC {x : List Char} (h : takeDL x = none) :
    takeDL (eScanC x) = none := by
  have hds : ∀ c ∈ x.takeWhile isDigitChar, c ≠ '}' :=
    fun c hc => digit_ne_curly (mem_takeWhile_true _ _ c hc)
  have hsplit : x.takeWhile isDigitChar ++ x.dropWhile isDigitChar = x :=
    List.takeWhile_append_dropWhile isDigitChar x
  rcases takeDL_none_iff.mp h with hnil | hnil
  · cases hx : x with
    | nil => rfl
    | cons c rest =>
      have hc : isDigitChar c = false := by
        cases hd : isDigitChar c
        · rfl
        · rw [hx, List.takeWhile_cons_of_pos hd] at hnil
          simp at hnil
      apply takeDL_none_head
      intro d hd
      rw [eScanC_head, List.head?_cons] at hd
      cases hd
      exact hc
  · rw [takeDL_none_iff]
    right
    cases hz : x.dropWhile isDigitChar with
    | nil =>
      rw [hz, List.append_nil] at hsplit
      have hall : ∀ c ∈ x, isDigitChar c = true := by
        intro c hc
        rw [← hsplit] at hc
        exact mem_takeWhile_true _ _ c hc
      have hcopy : eScanC x = x := by
        have h2 := @eScanC_copy x [] (fun c hc => digit_ne_curly (hall c hc))
        rw [List.append_nil, show eScanC ([] : List Char) = [] from rfl,
          List.append_nil] at h2
        exact h2
      rw [hcopy, dropWhile_all_nil _ _ hall]
      rfl
    | cons c z' =>
      have hcd : isDigitChar c = false := dropWhile_head_not _ _ c (by rw [hz]; rfl)
      have hcl : isLtrChar c = false := by
        cases hl : isLtrChar c
        · rfl
        · rw [hz, List.takeWhile_cons_of_pos hl] at hnil
          simp at hnil
      have hstep : eScanC x = x.takeWhile isDigitChar ++ eScanC (c :: z') := by
        conv_lhs => rw [← hsplit, hz]
        exact eScanC_copy hds
      rw [hstep]
      rw [dropWhile_append_all _ _ _ (fun d hd => mem_takeWhile_true _ _ d hd)]
      have hhead : (eScanC (c :: z')).head? = some c := by rw [eScanC_head]; rfl
      rw [dropWhile_id_of_head _ _ c hhead hcd]
      exact takeWhile_nil_of_head _ _ c hhead hcl

theorem hasB_eScanC_aux : ∀ n (y : List Char), y.length ≤ n → hasB y = false →
    hasB (eScanC y) = false := by
  intro n
  induction n with
  | zero =>
    intro y hy _
    have : y = [] := List.length_eq_zero.mp (Nat.le_zero.mp hy)
    subst this
    rfl
  | succ n ih =>
    intro y hy hB
    cases y with
    | nil => rfl
    | cons c rest =>
      simp only [List.length_cons, Nat.succ_le_succ_iff] at hy
      rw [hasB_cons, Bool.or_eq_false_iff, Bool.and_eq_false_iff] at hB
      by_cases hc : c = '}'
      · subst hc
        rw [eScanC_cons, if_pos rfl]
        cases ht : tryElse rest with
        | some r2 =>
          obtain ⟨sr, hrest, -⟩ := tryElse_spec ht
          have hr2 : hasB r2 = false := by
            have h1 : hasB (sr ++ ('e' :: 'l' :: 's' :: 'e' :: r2)) = false := by
              apply hasB_false_tail
              rw [← hrest]
              exact hB.2
            have h2 := hasB_false_suffix sr _ h1
            exact hasB_false_suffix ['e', 'l', 's', 'e'] r2 h2
          have hlen : r2.length ≤ n := le_trans (tryElse_len ht) hy
          dsimp only
          rw [hasB_cons, hasB_cons, hasB_cons, hasB_cons, hasB_cons, hasB_cons]
          rw [takeDL_cons_not_digit (show isDigitChar 'e' = false from by decide)]
          simp only [show isBoundary '}' = false from by decide,
            show isBoundary '\n' = true from by decide,
            show isBoundary 'e' = false from by decide,
            show isBoundary 'l' = false from by decide,
            show isBoundary 's' = false from by decide,
            Option.isSome_none, Bool.false_and, Bool.true_and, Bool.and_false, Bool.false_or]
          exact ih r2 hlen hr2
        | none =>
          dsimp only
          rw [hasB_cons]
          simp only [show isBoundary '}' = false from by decide, Bool.false_and, Bool.false_or]
          exact ih rest hy hB.2
      · rw [eScanC_cons, if_neg hc]
        rw [hasB_cons]
        have htail : hasB (eScanC rest) = false := ih rest hy hB.2
        rw [htail]
        by_cases hbc : isBoundary c = true
        · have hnone : takeDL rest = none := by
            rcases hB.1 with h | h
            · rw [hbc] at h; simp at h
            · exact Option.not_isSome_iff_eq_none.mp (by simp [h])
          rw [takeDL_none_eScanC hnone, hbc]
          simp
        · have : isBoundary c = false := by
            cases hb : isBoundary c
            · rfl
            · exact absurd hb hbc
          rw [this]
          simp

theorem hasDM_eScanC {y : List Char} (h : hasDM y = false) : hasDM (eScanC y) = false := by
  unfold hasDM at h ⊢
  rw [Bool.or_eq_false_iff] at h
  have hnone : takeDL y = none := Option.not_isSome_iff_eq_none.mp (by simp [h.1])
  rw [takeDL_none_eScanC hnone, hasB_eScanC_aux y.length y (le_refl _) h.2]
  rfl

theorem preParseL_idem (x : List Char) : preParseL (preParseL x) = preParseL x := by
  unfold preParseL
  rw [dFix_id (hasDM_eScanC (hasDM_dFix x))]
  exact eScanC_idem (dFix x)

end Hudl

namespace Hudl

theorem boundary_not_digit {c : Char} (h : isBoundary c = true) : isDigitChar c = false := by
  cases hd : isDigitChar c
  · rfl
  · exact absurd (digit_not_boundary hd) (by rw [h]; simp)

theorem takeDL_token {ds ls rest : List Char} (hds : ds ≠ []) (hds2 : ∀ c ∈ ds, isDigitChar c = true)
    (hls : ls ≠ []) (hls2 : ∀ c ∈ ls, isLtrChar c = true)
    (hrest : ∀ c, rest.head? = some c → isLtrChar c = false) :
    takeDL (ds ++ (ls ++ rest)) = some (ds, ls, rest) := by
  obtain ⟨l0, ls', rfl⟩ : ∃ l0 ls', ls = l0 :: ls' := by
    cases ls with
    | nil => exact absurd rfl hls
    | cons a b => exact ⟨a, b, rfl⟩
  have hl0 : isLtrChar l0 = true := hls2 l0 (List.mem_cons_self _ _)
  have htw : (ds ++ (l0 :: ls' ++ rest)).takeWhile isDigitChar = ds := by
    rw [takeWhile_append_all _ _ _ hds2]
    rw [takeWhile_nil_of_head isDigitChar (l0 :: ls' ++ rest) l0 rfl (ltr_not_digit hl0),
      List.append_nil]
  have hdw : (ds ++ (l0 :: ls' ++ rest)).dropWhile isDigitChar = l0 :: ls' ++ rest := by
    rw [dropWhile_append_all _ _ _ hds2]
    exact dropWhile_id_of_head isDigitChar (l0 :: ls' ++ rest) l0 rfl (ltr_not_digit hl0)
  have htw2 : (l0 :: ls' ++ rest).takeWhile isLtrChar = l0 :: ls' := by
    rw [show (l0 :: ls' ++ rest : List Char) = (l0 :: ls') ++ rest from rfl]
    rw [takeWhile_append_all _ _ _ hls2]
    cases hr : rest with
    | nil => simp
    | cons r0 r' =>
      rw [takeWhile_nil_of_head isLtrChar (r0 :: r') r0 rfl (hrest r0 (by rw [hr]; rfl)),
        List.append_nil]
  have hdw2 : (l0 :: ls' ++ rest).dropWhile isLtrChar = rest := by
    rw [show (l0 :: ls' ++ rest : List Char) = (l0 :: ls') ++ rest from rfl]
    rw [dropWhile_append_all _ _ _ hls2]
    cases hr : rest with
    | nil => rfl
    | cons r0 r' =>
      exact dropWhile_id_of_head isLtrChar (r0 :: r') r0 rfl (hrest r0 (by rw [hr]; rfl))
  have hcond : ¬((ds.isEmpty || (l0 :: ls').isEmpty) = true) := by
    rw [Bool.or_eq_true]
    rintro (h | h)
    · exact hds (List.isEmpty_iff.mp h)
    · simp at h
  unfold takeDL
  dsimp only
  rw [htw, hdw, htw2, hdw2, if_neg hcond]

theorem hasE_of_no_backslash {y : List Char} (h : ∀ c ∈ y, c ≠ '\\') : hasE y = false := by
  induction y with
  | nil => rfl
  | cons c rest ih =>
    rw [hasE_cons]
    rw [tryElse_not_backslash (fun d hd => by
      have : d ∈ rest := by
        cases rest with
        | nil => simp at hd
        | cons a r => simp at hd; subst hd; exact List.mem_cons_self _ _
      exact h d (List.mem_cons_of_mem c this))]
    simp only [Option.isSome_none, Bool.and_false, Bool.false_or]
    exact ih (fun d hd => h d (List.mem_cons_of_mem c hd))

theorem preParseL_token (p : List Char) (b : Char) (ds ls rest : List Char)
    (hp : ∀ c ∈ p, isBoundary c = false ∧ isDigitChar c = false)
    (hb : isBoundary b = true)
    (hds : ds ≠ []) (hds2 : ∀ c ∈ ds, isDigitChar c = true)
    (hls : ls ≠ []) (hls2 : ∀ c ∈ ls, isLtrChar c = true)
    (hrest : ∀ c, rest.head? = some c → isLtrChar c = false)
    (hnb : hasB rest = false)
    (hsl : ∀ c ∈ p ++ b :: (ds ++ (ls ++ rest)), c ≠ '\\') :
    preParseL (p ++ b :: (ds ++ (ls ++ rest))) = p ++ b :: '_' :: (ds ++ (ls ++ rest)) := by
  have hdfix : dFix (p ++ b :: (ds ++ (ls ++ rest))) = p ++ b :: '_' :: (ds ++ (ls ++ rest)) := by
    have hnone : takeDL (p ++ b :: (ds ++ (ls ++ rest))) = none := by
      apply takeDL_none_head
      intro c hc
      cases hp0 : p with
      | nil =>
        rw [hp0] at hc
        simp at hc
        rw [← hc]
        exact boundary_not_digit hb
      | cons a p' =>
        rw [hp0] at hc
        simp at hc
        rw [← hc]
        exact (hp a (by rw [hp0]; exact List.mem_cons_self _ _)).2
    unfold dFix
    rw [hnone]
    dsimp only
    rw [dScanC_copy (fun c hc => (hp c hc).1)]
    rw [dScanC_cons, if_pos hb, takeDL_token hds hds2 hls hls2 hrest]
    dsimp only
    rw [dScanC_id hnb, List.append_assoc]
  unfold preParseL
  rw [hdfix]
  apply eScanC_id
  apply hasE_of_no_backslash
  intro c hc
  rcases List.mem_append.mp hc with h | h
  · exact hsl c (List.mem_append.mpr (Or.inl h))
  · rcases List.mem_cons.mp h with h | h
    · exact hsl c (List.mem_append.mpr (Or.inr (by rw [h]; exact List.mem_cons_self _ _)))
    · rcases List.mem_cons.mp h with h | h
      · subst h
        decide
      · exact hsl c (List.mem_append.mpr (Or.inr (List.mem_cons_of_mem b h)))

end Hudl

namespace Hudl

theorem preParseL_token_start (ds ls rest : List Char)
    (hds : ds ≠ []) (hds2 : ∀ c ∈ ds, isDigitChar c = true)
    (hls : ls ≠ []) (hls2 : ∀ c ∈ ls, isLtrChar c = true)
    (hrest : ∀ c, rest.head? = some c → isLtrChar c = false)
    (hnb : hasB rest = false)
    (hsl : ∀ c ∈ ds ++ (ls ++ rest), c ≠ '\\') :
    preParseL (ds ++ (ls ++ rest)) = '_' :: (ds ++ (ls ++ rest)) := by
  have hdfix : dFix (ds ++ (ls ++ rest)) = '_' :: (ds ++ (ls ++ rest)) := by
    unfold dFix
    rw [takeDL_token hds hds2 hls hls2 hrest]
    dsimp only
    rw [dScanC_id hnb, List.append_assoc]
  unfold preParseL
  rw [hdfix]
  apply eScanC_id
  apply hasE_of_no_backslash
  intro c hc
  rcases List.mem_cons.mp hc with h | h
  · subst h
    decide
  · exact hsl c h

/-! ### indexAny and selLoop lemmas -/

theorem indexAny_none {l ts : List Char} (h : ∀ c ∈ l, ts.contains c = false) :
    indexAny l ts = none := by
  induction l with
  | nil => rfl
  | cons a l ih =>
    unfold indexAny
    rw [h a (List.mem_cons_self a l)]
    simp only [Bool.false_eq_true, if_false]
    rw [ih (fun c hc => h c (List.mem_cons_of_mem a hc))]
    rfl

theorem indexAny_append_none {l m ts : List Char} (h : indexAny l ts = none) :
    indexAny (l ++ m) ts = (indexAny m ts).map (· + l.length) := by
  induction l with
  | nil =>
    simp only [List.nil_append, List.length_nil]
    cases indexAny m ts <;> simp
  | cons a l ih =>
    simp only [indexAny] at h ⊢
    by_cases ha : ts.contains a = true
    · rw [ha] at h
      simp at h
    · have ha' : ts.contains a = false := by
        cases hc : ts.contains a
        · rfl
        · exact absurd hc ha
      rw [ha'] at h ⊢
      simp only [Bool.false_eq_true, if_false] at h ⊢
      have hl : indexAny l ts = none := by
        cases hl : indexAny l ts
        · rfl
        · rw [hl] at h; simp at h
      rw [show (l.append m) = l ++ m from rfl, ih hl]
      cases indexAny m ts <;> simp
      omega

theorem contains_amp_dot_false {c : Char} (h1 : c ≠ '&') (h2 : c ≠ '.') :
    (['&', '.'] : List Char).contains c = false := by
  simp [List.contains, h1, h2]

theorem contains_dot_false {c : Char} (h2 : c ≠ '.') :
    (['.'] : List Char).contains c = false := by
  simp [List.contains, h2]

theorem selLoop_fuelInv : ∀ f g (r : List Char) (id : String) (cls : List String),
    r.length ≤ f → r.length ≤ g → selLoop f r id cls = selLoop g r id cls := by
  intro f
  induction f with
  | zero =>
    intro g r id cls hf hg
    have : r = [] := List.length_eq_zero.mp (Nat.le_zero.mp hf)
    subst this
    cases g <;> rfl
  | succ f ih =>
    intro g r id cls hf hg
    cases r with
    | nil => cases g <;> rfl
    | cons c rest =>
      cases g with
      | zero => simp at hg
      | succ g =>
        simp only [List.length_cons, Nat.succ_le_succ_iff] at hf hg
        show selLoop (f + 1) (c :: rest) id cls = selLoop (g + 1) (c :: rest) id cls
        simp only [selLoop]
        by_cases hamp : c = '&'
        · rw [if_pos hamp, if_pos hamp]
          cases h : indexAny rest ['.'] with
          | none => rfl
          | some k =>
            dsimp only
            have hk : (rest.drop k).length ≤ rest.length := by
              rw [List.length_drop]
              omega
            rw [ih g (rest.drop k) (String.mk (rest.take k)) cls (le_trans hk hf)
              (le_trans hk hg)]
        · rw [if_neg hamp, if_neg hamp]
          by_cases hdot : c = '.'
          · rw [if_pos hdot, if_pos hdot]
            cases h : indexAny rest ['&', '.'] with
            | none => rfl
            | some k =>
              dsimp only
              have hk : (rest.drop k).length ≤ rest.length := by
                rw [List.length_drop]
                omega
              rw [ih g (rest.drop k) id (cls ++ [String.mk (rest.take k)]) (le_trans hk hf)
                (le_trans hk hg)]
          · rw [if_neg hdot, if_neg hdot]

end Hudl

namespace Hudl


theorem selLoopC_cons (c : Char) (rest : List Char) (id : String) (cls : List String) :
    selLoopC (c :: rest) id cls =
    if c = '&' then
      match indexAny rest ['.'] with
      | none => (String.mk rest, cls)
      | some k => selLoopC (rest.drop k) (String.mk (rest.take k)) cls
    else if c = '.' then
      match indexAny rest ['&', '.'] with
      | none => (id, cls ++ [String.mk rest])
      | some k => selLoopC (rest.drop k) id (cls ++ [String.mk (rest.take k)])
    else (id, cls) := by
  show selLoop (rest.length + 1) (c :: rest) id cls = _
  simp only [selLoop]
  by_cases hamp : c = '&'
  · rw [if_pos hamp, if_pos hamp]
    cases h : indexAny rest ['.'] with
    | none => rfl
    | some k =>
      dsimp only
      have hk : (rest.drop k).length ≤ rest.length := by
        rw [List.length_drop]
        omega
      rw [selLoop_fuelInv rest.length (rest.drop k).length (rest.drop k) _ _ hk (le_refl _)]
      rfl
  · rw [if_neg hamp, if_neg hamp]
    by_cases hdot : c = '.'
    · rw [if_pos hdot, if_pos hdot]
      cases h : indexAny rest ['&', '.'] with
      | none => rfl
      | some k =>
        dsimp only
        have hk : (rest.drop k).length ≤ rest.length := by
          rw [List.length_drop]
          omega
        rw [selLoop_fuelInv rest.length (rest.drop k).length (rest.drop k) _ _ hk (le_refl _)]
        rfl
    · rw [if_neg hdot, if_neg hdot]

theorem selC_dots : ∀ (cs : List String) (id : String) (acc : List String),
    (∀ s ∈ cs, ∀ c ∈ s.data, c ≠ '&' ∧ c ≠ '.') →
    selLoopC (dotsL cs) id acc = (id, acc ++ cs) := by
  intro cs
  induction cs with
  | nil =>
    intro id acc _
    rw [List.append_nil]
    rfl
  | cons s cs' ih =>
    intro id acc hcs
    have hs : ∀ c ∈ s.data, c ≠ '&' ∧ c ≠ '.' := hcs s (List.mem_cons_self _ _)
    have hia : indexAny s.data ['&', '.'] = none :=
      indexAny_none (fun c hc => contains_amp_dot_false (hs c hc).1 (hs c hc).2)
    show selLoopC ('.' :: (s.data ++ dotsL cs')) id acc = _
    rw [selLoopC_cons, if_neg (by decide), if_pos rfl]
    cases cs' with
    | nil =>
      have hn : indexAny (s.data ++ dotsL []) ['&', '.'] = none := by
        rw [indexAny_append_none hia]
        rfl
      rw [hn]
      dsimp only
      show (id, acc ++ [String.mk (s.data ++ [])]) = (id, acc ++ [s])
      rw [List.append_nil]
    | cons t cs'' =>
      have hsome : indexAny (s.data ++ dotsL (t :: cs'')) ['&', '.'] = some s.data.length := by
        rw [indexAny_append_none hia]
        show Option.map _ (indexAny ('.' :: (t.data ++ dotsL cs'')) ['&', '.']) = _
        unfold indexAny
        rw [if_pos (by decide)]
        simp
      rw [hsome]
      dsimp only
      rw [List.take_left, List.drop_left]
      rw [ih id (acc ++ [String.mk s.data]) (fun u hu => hcs u (List.mem_cons_of_mem s hu))]
      rw [List.append_assoc]
      rfl

theorem selC_amp : ∀ (i : String) (cs : List String) (id0 : String) (acc : List String),
    (∀ c ∈ i.data, c ≠ '.') →
    (∀ s ∈ cs, ∀ c ∈ s.data, c ≠ '&' ∧ c ≠ '.') →
    selLoopC ('&' :: (i.data ++ dotsL cs)) id0 acc = (i, acc ++ cs) := by
  intro i cs id0 acc hi hcs
  have hia : indexAny i.data ['.'] = none :=
    indexAny_none (fun c hc => contains_dot_false (hi c hc))
  rw [selLoopC_cons, if_pos rfl]
  cases cs with
  | nil =>
    have hn : indexAny (i.data ++ dotsL []) ['.'] = none := by
      rw [indexAny_append_none hia]
      rfl
    rw [hn]
    dsimp only
    show (String.mk (i.data ++ []), acc) = (i, acc ++ [])
    rw [List.append_nil, List.append_nil]
  | cons t cs'' =>
    have hsome : indexAny (i.data ++ dotsL (t :: cs'')) ['.'] = some i.data.length := by
      rw [indexAny_append_none hia]
      show Option.map _ (indexAny ('.' :: (t.data ++ dotsL cs'')) ['.']) = _
      unfold indexAny
      rw [if_pos (by decide)]
      simp
    rw [hsome]
    dsimp only
    rw [List.take_left, List.drop_left]
    rw [selC_dots (t :: cs'') i acc hcs]

end Hudl

namespace Hudl

theorem C2_selector_split_amended (t i : String) (cs : List String)
    (ht : t ≠ "") (ht2 : ∀ c ∈ t.data, c ≠ '&' ∧ c ≠ '.')
    (hi : ∀ c ∈ i.data, c ≠ '.')
    (hcs : ∀ s ∈ cs, ∀ c ∈ s.data, c ≠ '&' ∧ c ≠ '.') :
    splitSelector (t ++ "&" ++ i ++ dotsJoin cs) = (t, i, cs)
    ∧ splitSelector ("&" ++ i ++ dotsJoin cs) = ("div", i, cs)
    ∧ (cs ≠ [] → splitSelector (dotsJoin cs) = ("div", "", cs))
    ∧ splitSelector t = (t, "", []) := by
  obtain ⟨c0, tr, ht0⟩ : ∃ c0 tr, t.data = c0 :: tr := by
    cases h : t.data with
    | nil =>
      exfalso
      apply ht
      have : t = String.mk t.data := rfl
      rw [h] at this
      exact this
    | cons a b => exact ⟨a, b, rfl⟩
  have hc0 : c0 ≠ '&' ∧ c0 ≠ '.' := ht2 c0 (by rw [ht0]; exact List.mem_cons_self _ _)
  have hiat : indexAny t.data ['&', '.'] = none :=
    indexAny_none (fun c hc => contains_amp_dot_false (ht2 c hc).1 (ht2 c hc).2)
  refine ⟨?_, ?_, ?_, ?_⟩
  · -- tag & id . classes
    have hdata : (t ++ "&" ++ i ++ dotsJoin cs).data
        = t.data ++ ('&' :: (i.data ++ dotsL cs)) := by
      show ((t.data ++ ['&']) ++ i.data) ++ dotsL cs = _
      simp [List.append_assoc]
    unfold splitSelector
    rw [hdata]
    dsimp only
    have hhead : ¬((t.data ++ ('&' :: (i.data ++ dotsL cs))).head? = some '&'
        ∨ (t.data ++ ('&' :: (i.data ++ dotsL cs))).head? = some '.') := by
      rw [ht0]
      rintro (h | h) <;> (simp at h; exact absurd h (by tauto))
    rw [if_neg hhead]
    have hsome : indexAny (t.data ++ ('&' :: (i.data ++ dotsL cs))) ['&', '.']
        = some t.data.length := by
      rw [indexAny_append_none hiat]
      unfold indexAny
      rw [if_pos (by decide)]
      simp
    rw [hsome]
    dsimp only
    rw [List.take_left, List.drop_left]
    have hfuel : selLoop (t.data ++ ('&' :: (i.data ++ dotsL cs))).length
        ('&' :: (i.data ++ dotsL cs)) "" []
        = selLoopC ('&' :: (i.data ++ dotsL cs)) "" [] := by
      apply selLoop_fuelInv
      · simp
      · exact le_refl _
    rw [hfuel, selC_amp i cs "" [] hi hcs]
    rfl
  · -- leading & : elided div
    have hdata : ("&" ++ i ++ dotsJoin cs).data = '&' :: (i.data ++ dotsL cs) := by
      show (['&'] ++ i.data) ++ dotsL cs = _
      simp
    unfold splitSelector
    rw [hdata]
    dsimp only
    rw [if_pos (show ('&' :: (i.data ++ dotsL cs)).head? = some '&'
      ∨ ('&' :: (i.data ++ dotsL cs)).head? = some '.' from Or.inl rfl)]
    have hfuel : selLoop ('&' :: (i.data ++ dotsL cs)).length ('&' :: (i.data ++ dotsL cs)) "" []
        = selLoopC ('&' :: (i.data ++ dotsL cs)) "" [] := rfl
    rw [hfuel, selC_amp i cs "" [] hi hcs]
    rfl
  · -- leading . : elided div
    intro hne
    cases cs with
    | nil => exact absurd rfl hne
    | cons u us =>
      have hdata : (dotsJoin (u :: us)).data = '.' :: (u.data ++ dotsL us) := rfl
      unfold splitSelector
      rw [hdata]
      dsimp only
      rw [if_pos (show ('.' :: (u.data ++ dotsL us)).head? = some '&'
        ∨ ('.' :: (u.data ++ dotsL us)).head? = some '.' from Or.inr rfl)]
      have hfuel : selLoop ('.' :: (u.data ++ dotsL us)).length ('.' :: (u.data ++ dotsL us)) "" []
          = selLoopC (dotsL (u :: us)) "" [] := rfl
      rw [hfuel, selC_dots (u :: us) "" [] hcs]
      rfl
  · -- bare tag
    unfold splitSelector
    dsimp only
    have hhead : ¬(t.data.head? = some '&' ∨ t.data.head? = some '.') := by
      rw [ht0]
      rintro (h | h) <;> (simp at h; exact absurd h (by tauto))
    rw [if_neg hhead, hiat]

end Hudl

namespace Hudl


theorem perm_short {A B : List (String × String)} (hperm : A.Perm B) (hlen : A.length ≤ 1) :
    A = B := by
  cases A with
  | nil =>
    have := hperm.symm.eq_nil
    rw [this]
  | cons a as =>
    cases as with
    | nil =>
      have := List.perm_singleton.mp hperm.symm
      rw [this]
    | cons b bs => simp at hlen

/-- Claim C6 as amended: the emitter writes the open tag, then id, then
class, as a fixed prefix, followed by the remaining attributes in the Go
map iteration order, which is unspecified; output is therefore only
guaranteed byte-identical across emissions when the element has at most
one other attribute. -/
theorem C6_attr_order_amended (tag id : String) (classes : List String) (children : List Node)
    (A B : List (String × String)) (hperm : A.Perm B) :
    (∃ rest, generateNodeOutput (Node.element tag id classes A children)
        = openPart tag id classes ++ rest)
    ∧ (A.length ≤ 1 → generateNodeOutput (Node.element tag id classes A children)
        = generateNodeOutput (Node.element tag id classes B children)) := by
  constructor
  · refine ⟨attrsOutput A ++ (">" ++ (generateNodesOutput children ++ ("</" ++ (tag ++ ">")))), ?_⟩
    show openPart tag id classes ++ attrsOutput A ++ ">"
        ++ generateNodesOutput children ++ "</" ++ tag ++ ">" = _
    simp [String.append_assoc]
  · intro hlen
    rw [perm_short hperm hlen]

/-- Claim C7: NewRuntime is in dev mode exactly when HUDL_DEV holds a
truthy value, where truthy means the string 1 or the string true per the
doc comment of runtime.go; and in dev mode with HUDL_DEV_ADDR unset the
runtime created addresses render requests to localhost port 9999. -/
theorem C7_dev_mode_env (env : String → String) (wasmBytes : Option (List Nat)) (instOk : Bool) :
    (∀ rt, NewRuntime env wasmBytes instOk = Except.ok rt →
      (rt.devMode = true ↔ truthyDev (env "HUDL_DEV") = true))
    ∧ (truthyDev (env "HUDL_DEV") = true → env "HUDL_DEV_ADDR" = "" →
        ∃ rt, NewRuntime env wasmBytes instOk = Except.ok rt ∧ rt.devMode = true ∧
          renderDevURL rt = "http://localhost:9999/render") := by
  constructor
  · intro rt h
    unfold NewRuntime at h
    cases htr : truthyDev (env "HUDL_DEV") with
    | true =>
      rw [htr] at h
      simp at h
      rw [← h]
    | false =>
      rw [htr] at h
      simp only [Bool.false_eq_true, if_false] at h
      cases wasmBytes with
      | none => simp at h
      | some bs =>
        cases instOk with
        | true =>
          simp at h
          rw [← h]
        | false => simp at h
  · intro htr haddr
    refine ⟨{ devMode := true, devAddr := "localhost:9999", wasmInitialized := false },
      ?_, rfl, rfl⟩
    unfold NewRuntime
    rw [htr, haddr]
    simp

/-- Claim C9: in prod mode (HUDL_DEV not truthy) a nil wasmBytes makes
NewRuntime return an error and no runtime; in dev mode NewRuntime
succeeds with nil wasmBytes and performs no WASM initialization. -/
theorem C9_nil_wasm_bytes (env : String → String) (instOk : Bool) :
    (truthyDev (env "HUDL_DEV") = false → ∃ e, NewRuntime env none instOk = Except.error e)
    ∧ (truthyDev (env "HUDL_DEV") = true →
        ∃ rt, NewRuntime env none instOk = Except.ok rt ∧ rt.wasmInitialized = false) := by
  constructor
  · intro htr
    unfold NewRuntime
    rw [htr]
    exact ⟨_, rfl⟩
  · intro htr
    unfold NewRuntime
    rw [htr]
    exact ⟨_, rfl, rfl⟩

/-- Claim C10: renderWASM reads the packed 64-bit result as pointer in
the high 32 bits and size in the low 32 bits and returns exactly size
bytes read from memory at the pointer; when the memory read fails it
returns an error and no HTML. -/
theorem C10_packed_pointer_size (mem : List Nat) (ptr size : Nat) (hp : ptr < 2 ^ 32) (hs : size < 2 ^ 32) :
    (ptr + size ≤ mem.length →
      renderWASM mem (ptr * 2 ^ 32 + size) = Except.ok ((mem.drop ptr).take size)
      ∧ ((mem.drop ptr).take size).length = size)
    ∧ (mem.length < ptr + size →
      renderWASM mem (ptr * 2 ^ 32 + size) = Except.error "failed to read result from memory") := by
  have hdiv : ptr * 2 ^ 32 + size = 2 ^ 32 * ptr + size := by ring
  have hptr : (ptr * 2 ^ 32 + size) / 2 ^ 32 % 2 ^ 32 = ptr := by
    rw [hdiv, Nat.mul_add_div (by positivity), Nat.div_eq_of_lt hs, Nat.add_zero,
      Nat.mod_eq_of_lt hp]
  have hsize : (ptr * 2 ^ 32 + size) % 2 ^ 32 = size := by
    rw [hdiv, Nat.mul_add_mod, Nat.mod_eq_of_lt hs]
  constructor
  · intro hle
    unfold renderWASM goMemRead
    dsimp only
    rw [hptr, hsize, if_pos hle]
    refine ⟨rfl, ?_⟩
    rw [List.length_take, List.length_drop]
    omega
  · intro hgt
    unfold renderWASM goMemRead
    dsimp only
    rw [hptr, hsize, if_neg (by omega)]

end Hudl

namespace Hudl

/-- Claim C1 (code_bug evidence): the render function generated by
GenerateGo emits the Text content of a Text node verbatim: for the element
p with text child whose content is the three bytes lt x gt, the emitted
HTML is exactly those bytes between the tags, so the raw characters lt and
gt from the value do appear in the output, contrary to the claim (and to
the escaping required by the specification).  generateText carries the
comment TODO Handle expressions / treat everything as literal string. -/
theorem C1_generated_text_not_escaped : generateNodeOutput (Node.element "p" "" [] [] [Node.text "<x>"]) = "<p><x></p>"
    ∧ '<' ∈ ("<x>" : String).data := by
  constructor
  · decide
  · decide

/-- Claim C2 counterexample: the claim says names split at a dot or hash
boundary, a hash segment sets the id and a leading dot or hash elides the
tag to div.  The code splits at dot and ampersand instead: the name
div#title keeps the hash and produces tag div#title with empty id, and the
name #intro yields tag #intro rather than a div with id intro. -/
theorem C2_selector_counterexample : transformNode (KdlNode.mk "div#title" [] [] []) = Node.element "div#title" "" [] [] []
    ∧ splitSelector "div#title" ≠ ("div", "title", [])
    ∧ splitSelector "#intro" = ("#intro", "", []) := by
  refine ⟨rfl, by decide, by decide⟩

/-- Witness for the amended claim C2 at the concrete selector names of the
repository transformer test. -/
theorem C2_selector_split_witness : splitSelector "span&main-title.text-bold.red" = ("span", "main-title", ["text-bold", "red"])
    ∧ splitSelector "&header" = ("div", "header", [])
    ∧ splitSelector "span" = ("span", "", []) := by
  have h := C2_selector_split_amended "span" "main-title" ["text-bold", "red"]
    (by decide) (by decide) (by decide) (by decide)
  have h2 := C2_selector_split_amended "span" "header" [] (by decide) (by decide) (by decide) (by decide)
  exact ⟨h.1, h2.2.1, h2.2.2.2⟩

/-- Claim C3 (code_bug evidence): PreParse leaves the test input of
TestPreParse unchanged because the else regex, written inside a Go raw
string as right brace, double backslash, s, star, else, matches a literal
backslash followed by letters s rather than whitespace; the repository
test expects the newline rewrite, so the code contradicts its own test. -/
theorem C3_condensed_else_not_rewritten : PreParse "if \"cond\" { div } else { span }" = "if \"cond\" { div } else { span }"
    ∧ "if \"cond\" { div } else { span }" ≠ "if \"cond\" { div }\nelse { span }" := by
  constructor
  · decide
  · decide

/-- Claim C4 (code_bug evidence): br is in the void-element set, yet the
generated render function for a br element with a text child emits the
child and the closing tag, contrary to the claim and to the repository
documentation (TESTING.md void-element cases, TODO Handle self-closing in
generateElement). -/
theorem C4_void_element_children_and_close_emitted : "br" ∈ voidElements
    ∧ generateNodeOutput (Node.element "br" "" [] [] [Node.text "hi"]) = "<br>hi</br>" := by
  constructor
  · decide
  · decide

/-- Claim C5 counterexample: the claim offers 1.2rem as an example of a
prefixed token, but the digit regex requires letters or percent directly
after the digits, so the dot stops the match and PreParse leaves the
token 1.2rem unchanged instead of producing _1.2rem. -/
theorem C5_numeric_prefix_counterexample : PreParse " 1.2rem" = " 1.2rem" ∧ PreParse " 1.2rem" ≠ " _1.2rem" := by
  constructor
  · decide
  · decide

/-- Claim C5 as amended: a token of digits immediately followed by
letters or percent signs, preceded by a whitespace character, a left
brace, a semicolon (the only delimiters of the regex class) or the start
of the input, and followed by a non-letter, is prefixed with an
underscore by PreParse, and the surrounding text (assumed free of further
matches and of backslashes, which belong to the else rule) is left
unchanged.  Tokens interrupted by a dot, such as 1.2rem, are not
rewritten. -/
theorem C5_numeric_prefix_amended (p : List Char) (b : Char) (ds ls rest : List Char)
    (hp : ∀ c ∈ p, isBoundary c = false ∧ isDigitChar c = false)
    (hb : isBoundary b = true)
    (hds : ds ≠ []) (hds2 : ∀ c ∈ ds, isDigitChar c = true)
    (hls : ls ≠ []) (hls2 : ∀ c ∈ ls, isLtrChar c = true)
    (hrest : ∀ c, rest.head? = some c → isLtrChar c = false)
    (hnb : hasB rest = false)
    (hsl : ∀ c ∈ p ++ b :: (ds ++ (ls ++ rest)), c ≠ '\\') :
    PreParse (String.mk (p ++ b :: (ds ++ (ls ++ rest))))
      = String.mk (p ++ b :: '_' :: (ds ++ (ls ++ rest)))
    ∧ PreParse (String.mk (ds ++ (ls ++ rest))) = String.mk ('_' :: (ds ++ (ls ++ rest))) := by
  constructor
  · unfold PreParse
    rw [show (String.mk (p ++ b :: (ds ++ (ls ++ rest)))).data
      = p ++ b :: (ds ++ (ls ++ rest)) from rfl]
    rw [preParseL_token p b ds ls rest hp hb hds hds2 hls hls2 hrest hnb hsl]
  · unfold PreParse
    rw [show (String.mk (ds ++ (ls ++ rest))).data = ds ++ (ls ++ rest) from rfl]
    rw [preParseL_token_start ds ls rest hds hds2 hls hls2 hrest hnb
      (fun c hc => hsl c (List.mem_append.mpr (Or.inr (List.mem_cons_of_mem b hc))))]

/-- Witness for the amended claim C5 on the first TestPreParse input. -/
theorem C5_numeric_prefix_witness :
    PreParse (String.mk ("width".data ++ ' ' :: ("100".data ++ ("px".data ++ ";".data))))
    = String.mk ("width".data ++ ' ' :: '_' :: ("100".data ++ ("px".data ++ ";".data))) :=
  (C5_numeric_prefix_amended "width".data ' ' "100".data "px".data ";".data (by decide)
    (by decide) (by decide) (by decide) (by decide) (by decide) (by decide) (by decide)
    (by decide)).1


end Hudl

namespace Hudl

/-- Claim C6 counterexample: two iteration orders of the same attribute
map (the two lists are permutations of each other, hence equal as Go
maps) make the generated render function emit different bytes, so
emitting the same element AST twice is not guaranteed to be
byte-identical, and no insertion order exists in a Go map. -/
theorem C6_attr_order_counterexample :
    ([("a", "1"), ("b", "2")] : List (String × String)).Perm [("b", "2"), ("a", "1")]
    ∧ generateNodeOutput (Node.element "div" "" [] [("a", "1"), ("b", "2")] [])
      ≠ generateNodeOutput (Node.element "div" "" [] [("b", "2"), ("a", "1")] []) := by
  constructor
  · decide
  · decide

/-- Witness for the amended claim C6 at a concrete element with one
attribute. -/
theorem C6_attr_order_witness :
    (∃ rest, generateNodeOutput (Node.element "div" "main" ["container"] [("href", "/x")] [])
      = openPart "div" "main" ["container"] ++ rest)
    ∧ generateNodeOutput (Node.element "div" "main" ["container"] [("href", "/x")] [])
      = generateNodeOutput (Node.element "div" "main" ["container"] [("href", "/x")] []) :=
  ⟨(C6_attr_order_amended "div" "main" ["container"] [] [("href", "/x")] [("href", "/x")]
      (by decide)).1,
   (C6_attr_order_amended "div" "main" ["container"] [] [("href", "/x")] [("href", "/x")]
      (by decide)).2 (by decide)⟩

/-- Witness for claim C7: with HUDL_DEV set to 1 and HUDL_DEV_ADDR unset,
NewRuntime succeeds in dev mode and renderDev posts to localhost:9999. -/
theorem C7_dev_mode_env_witness :
    ∃ rt, NewRuntime (fun k => if k = "HUDL_DEV" then "1" else "") none true = Except.ok rt
      ∧ rt.devMode = true ∧ renderDevURL rt = "http://localhost:9999/render" :=
  (C7_dev_mode_env (fun k => if k = "HUDL_DEV" then "1" else "") none true).2
    (by decide) (by decide)

/-- Claim C8: PreParse is idempotent; applying it a second time changes
nothing, for every input string. -/
theorem C8_preparse_idempotent (s : String) : PreParse (PreParse s) = PreParse s := by
  unfold PreParse
  rw [show (String.mk (preParseL s.data)).data = preParseL s.data from rfl, preParseL_idem]

/-- Witness for claim C8 at a concrete input exercising the digit rule. -/
theorem C8_preparse_idempotent_witness :
    PreParse (PreParse "width 100px; height 50%;") = PreParse "width 100px; height 50%;" :=
  C8_preparse_idempotent "width 100px; height 50%;"

/-- Witness for claim C9: a prod-mode environment with nil wasmBytes
errors, and a dev-mode environment with nil wasmBytes succeeds without
WASM initialization. -/
theorem C9_nil_wasm_bytes_witness :
    (∃ e, NewRuntime (fun _ => "") none true = Except.error e)
    ∧ (∃ rt, NewRuntime (fun k => if k = "HUDL_DEV" then "true" else "") none true = Except.ok rt
        ∧ rt.wasmInitialized = false) :=
  ⟨(C9_nil_wasm_bytes (fun _ => "") true).1 (by decide),
   (C9_nil_wasm_bytes (fun k => if k = "HUDL_DEV" then "true" else "") true).2 (by decide)⟩

/-- Witness for claim C10 at a concrete three-byte memory with pointer 1
and size 2. -/
theorem C10_packed_pointer_size_witness :
    (renderWASM [10, 20, 30] (1 * 2 ^ 32 + 2) = Except.ok [20, 30]
      ∧ (([10, 20, 30] : List Nat).drop 1).take 2 = [20, 30])
    ∧ renderWASM [10, 20] (1 * 2 ^ 32 + 2) = Except.error "failed to read result from memory" := by
  refine ⟨⟨?_, by decide⟩, ?_⟩
  · have h := (C10_packed_pointer_size [10, 20, 30] 1 2 (by decide) (by decide)).1 (by decide)
    exact h.1
  · exact (C10_packed_pointer_size [10, 20] 1 2 (by decide) (by decide)).2 (by decide)

end Hudl
